import Mathlib

/-!
Verification development for the Laplacian-on-the-unit-square solver
(`JacobiSolver`, file `src/jacobi_solver.cpp` and header `jacobi_solver.hpp`).

Doubles are modelled as exact rationals (`ℚ`).  The single use of
`std::sqrt` in the source is in `compute_error_serial`, whose result is
only ever compared against `tol`; for `S ≥ 0` the comparison
`std::sqrt S < tol` is equivalent to `0 < tol ∧ S < tol * tol`, so the
embedding keeps the radicand in `ℚ` and embeds the comparison through
`sqrtLtB` below.  The bridging facts are proved over `ℝ`
(`sqrtLtB_correct`, `foldl_max_sqrt`).
-/

namespace Laplace

/-- Flat row-major index `i * n + j` used everywhere in the source
(`uh[i * n + j]`). -/
def idx (n i j : ℕ) : ℕ := i * n + j

/-- Problem data held by `JacobiSolver` (constructor of
`jacobi_solver.hpp`): grid size `n`, iteration budget `max_iter`,
tolerance `tol`, source term `f` and the four boundary callables. -/
structure Params where
  n : ℕ
  max_iter : ℕ
  tol : ℚ
  f : ℚ → ℚ → ℚ
  top_bc : ℚ → ℚ → ℚ
  right_bc : ℚ → ℚ → ℚ
  bottom_bc : ℚ → ℚ → ℚ
  left_bc : ℚ → ℚ → ℚ

/-- Embedding of `JacobiSolver::fun_at`: evaluate a callable at the
normalized pair `(i/(n-1), j/(n-1))`.  Every call site of the source
satisfies the `i < n`, `j < n` range check, so the `throw` branch is
dropped. -/
def funAt (n : ℕ) (g : ℚ → ℚ → ℚ) (i j : ℕ) : ℚ :=
  g ((i : ℚ) / ((n : ℚ) - 1)) ((j : ℚ) / ((n : ℚ) - 1))

/-- Grid spacing `h = 1.0 / (n - 1)`. -/
def hstep (n : ℕ) : ℚ := 1 / ((n : ℚ) - 1)

/-- Embedding of the comparison `std::sqrt S < tol` for a nonnegative
radicand `S`: equivalent to `0 < tol ∧ S < tol * tol`
(see `sqrtLtB_correct`). -/
def sqrtLtB (S tol : ℚ) : Bool := decide (0 < tol ∧ S < tol * tol)

/-- Boundary assignment of `solve_serial` (lines 31-37): one loop over
`i`, each iteration writing, in order,
`uh[i] = fun_at(top_bc, i, n-1)`, `uh[i*n+(n-1)] = fun_at(right_bc, n-1, i)`,
`uh[(n-1)*n+i] = fun_at(bottom_bc, i, 0)`, `uh[i*n] = fun_at(left_bc, 0, i)`. -/
def bStep (p : Params) (u : List ℚ) (i : ℕ) : List ℚ :=
  (((u.set (idx p.n 0 i) (funAt p.n p.top_bc i (p.n - 1))).set
      (idx p.n i (p.n - 1)) (funAt p.n p.right_bc (p.n - 1) i)).set
      (idx p.n (p.n - 1) i) (funAt p.n p.bottom_bc i 0)).set
      (idx p.n i 0) (funAt p.n p.left_bc 0 i)

def applyBoundarySerial (p : Params) (uh : List ℚ) : List ℚ :=
  (List.range p.n).foldl (bStep p) uh

/-- Jacobi update value for interior cell `(i, j)` (lines 56-58 of the
source): `0.25 * (previous[(i-1)*n+j] + previous[(i+1)*n+j]
+ previous[i*n+(j-1)] + previous[i*n+(j+1)] + h*h*fun_at(f, i, j))`. -/
def stencil (p : Params) (previous : List ℚ) (i j : ℕ) : ℚ :=
  0.25 * (previous.getD (idx p.n (i - 1) j) 0 + previous.getD (idx p.n (i + 1) j) 0 +
          previous.getD (idx p.n i (j - 1)) 0 + previous.getD (idx p.n i (j + 1)) 0 +
          hstep p.n * hstep p.n * funAt p.n p.f i j)

/-- Inner loop (over `j`) of the serial sweep for a fixed row `i`. -/
def sweepRow (p : Params) (previous u : List ℚ) (i : ℕ) : List ℚ :=
  (List.range' 1 (p.n - 2)).foldl (fun u2 j =>
    u2.set (idx p.n i j) (stencil p previous i j)) u

/-- Interior pass of one serial Jacobi sweep (lines 51-60): nested loops
`i = 1 .. n-2`, `j = 1 .. n-2`, writing `uh[i*n+j]` from `previous`. -/
def sweepSerial (p : Params) (previous uh : List ℚ) : List ℚ :=
  (List.range' 1 (p.n - 2)).foldl (sweepRow p previous) uh

/-- Radicand of `JacobiSolver::compute_error_serial` (lines 787-799):
the source accumulates `(sol1[i*n+j]-sol2[i*n+j])^2` over
`i < rows, j < cols` (row stride is always the member `n`) and returns
`std::sqrt(1.0/(n-1) * error)`; this definition is that call up to the
final `std::sqrt`. -/
def compute_error_serial_sq (n : ℕ) (sol1 sol2 : List ℚ) (rows cols : ℕ) : ℚ :=
  (1 / ((n : ℚ) - 1)) *
    ((List.range rows).foldl (fun e i =>
      (List.range cols).foldl (fun e2 j =>
        e2 + (sol1.getD (idx n i j) 0 - sol2.getD (idx n i j) 0) *
             (sol1.getD (idx n i j) 0 - sol2.getD (idx n i j) 0)) e) 0)

/-- Main loop of `solve_serial` (lines 45-75), fuel-indexed with
`fuel + iteration = max_iter`.  Returns the final `uh`, the recorded
`iter`, and whether the max-iteration warning was printed.  The source
copies `uh` to `previous`, runs the interior pass, computes
`compute_error_serial(uh, previous, n, n)`, and on the residual test
sets `converged` and `iter = ++iteration`; reaching
`iteration == max_iter - 1` without convergence prints the warning and
sets `iter = max_iter`. -/
def solveSerialLoop (p : Params) : ℕ → ℕ → List ℚ → ℕ → List ℚ × ℕ × Bool
  | 0, _, uh, iter => (uh, iter, false)
  | fuel + 1, iteration, uh, iter =>
      let previous := uh
      let uh2 := sweepSerial p previous previous
      let residualSq := compute_error_serial_sq p.n uh2 previous p.n p.n
      if sqrtLtB residualSq p.tol then (uh2, iteration + 1, false)
      else if iteration = p.max_iter - 1 then (uh2, iteration + 1, true)
      else solveSerialLoop p fuel (iteration + 1) uh2 iter

/-- Embedding of `JacobiSolver::solve_serial` acting on the state
`(uh, iter)`: boundary assignment followed by the Jacobi loop. -/
def solve_serial (p : Params) (uh : List ℚ) (iter : ℕ) : List ℚ × ℕ × Bool :=
  solveSerialLoop p p.max_iter 0 (applyBoundarySerial p uh) iter

/-- The iterate after `k` full serial sweeps starting from `u` (the
source aliases `previous := uh` before each sweep). -/
def iterateSweep (p : Params) (u : List ℚ) : ℕ → List ℚ
  | 0 => u
  | k + 1 => sweepSerial p (iterateSweep p u k) (iterateSweep p u k)

/-- Whether the sweep from iterate `k` to iterate `k+1` passes the
residual test of `solve_serial`. -/
def convAt (p : Params) (u0 : List ℚ) (k : ℕ) : Bool :=
  sqrtLtB (compute_error_serial_sq p.n (iterateSweep p u0 (k + 1))
    (iterateSweep p u0 k) p.n p.n) p.tol

/-- Derived characterization of `solve_serial`'s boundary pass: because
the four writes of each loop iteration happen in the order top, right,
bottom, left, the left callable wins the whole left column, the bottom
callable wins the whole bottom row except the left corner, the top
callable wins the rest of the top row, and the right callable gets only
the interior rows' right-end cells. -/
def boundaryValSerial (p : Params) (i j : ℕ) : ℚ :=
  if j = 0 then funAt p.n p.left_bc 0 i
  else if i = p.n - 1 then funAt p.n p.bottom_bc j 0
  else if i = 0 then funAt p.n p.top_bc j (p.n - 1)
  else funAt p.n p.right_bc (p.n - 1) i

/-- Concrete problem instance used by several witnesses: `n = 4`, affine
data making each callable's evaluations distinguishable. -/
def pT : Params :=
  ⟨4, 10, 1, fun x y => x + y, fun x y => 100 + x + 10 * y, fun x y => 200 + x + 10 * y,
   fun x y => 300 + x + 10 * y, fun x y => 400 + x + 10 * y⟩

/-- Concrete `previous` iterate for the C1 witness. -/
def prevT : List ℚ :=
  [10, 11, 12, 13, 14, 15, 16, 17, 18, 19, 20, 21, 22, 23, 24, 25]

/-- Problem instance refuting C4 as stated: `n = 3` and the left
callable returns its second argument. -/
def pC4 : Params :=
  ⟨3, 10, 1, fun _ _ => 0, fun _ _ => 0, fun _ _ => 0, fun _ _ => 0, fun _ y => y⟩

/-- Problem instance refuting C8 as stated: `n = 3`, the left callable
constantly `7`, all other callables constantly `0`. -/
def pC8 : Params :=
  ⟨3, 10, 1, fun _ _ => 0, fun _ _ => 0, fun _ _ => 0, fun _ _ => 0, fun _ _ => 7⟩

/-- Instance for the C2 witness: `n = 3`, everything zero, `tol = 1`,
`max_iter = 2`; the very first sweep leaves the zero field unchanged,
so the residual is `0 < 1` and the loop converges with `iter = 1`. -/
def pW2 : Params :=
  ⟨3, 2, 1, fun _ _ => 0, fun _ _ => 0, fun _ _ => 0, fun _ _ => 0, fun _ _ => 0⟩

/-- `count = n / mpi_size` (line 188 of the source). -/
def countDiv (n P : ℕ) : ℕ := n / P

/-- `remainder = n - count * mpi_size` (line 189 of the source). -/
def remainder (n P : ℕ) : ℕ := n - (n / P) * P

/-- Rows assigned to rank `r` before halos:
`(mpi_rank < remainder) ? count + 1 : count` (line 233). -/
def rowsOwned (n P r : ℕ) : ℕ :=
  if r < remainder n P then countDiv n P + 1 else countDiv n P

/-- Per-rank local row count including ghost rows (lines 230-239):
first and last rank get one halo row, the middle ranks two; with one
rank the whole grid is local. -/
def localRows (n P r : ℕ) : ℕ :=
  if 1 < P then rowsOwned n P r + (if r = 0 ∨ r = P - 1 then 1 else 2)
  else n

/-- Scatter counts computed on rank 0 (lines 201-227): per-rank element
counts, halo rows included. -/
def countsVal (n P r : ℕ) : ℕ :=
  if 1 < P then
    if r = 0 then
      (if 0 < remainder n P then countDiv n P + 1 + 1 else countDiv n P + 1) * n
    else if r = P - 1 then
      (if P - 1 < remainder n P then countDiv n P + 1 + 1 else countDiv n P + 1) * n
    else (if r < remainder n P then countDiv n P + 1 + 2 else countDiv n P + 2) * n
  else n * n

/-- Scatter offsets computed on rank 0 (lines 208-219): rank 0 starts
at 0 and each next slice starts `counts[r] - 2n` elements after the
previous one (`start_idx += counts[i] - 2 * n`). -/
def startIdxs (n P : ℕ) : ℕ → ℕ
  | 0 => 0
  | r + 1 => startIdxs n P r + (countsVal n P r - 2 * n)

/-- First global row owned by rank `r` (derived layout description). -/
def rowStart (n P : ℕ) : ℕ → ℕ
  | 0 => 0
  | r + 1 => rowStart n P r + rowsOwned n P r

/-- Boundary assignment of `solve_mpi` and `solve_direct`
(lines 177-185 of the source, executed on rank 0); note the coordinate
order passed to `fun_at` differs from `solve_serial`'s. -/
def bStepMpi (p : Params) (u : List ℚ) (i : ℕ) : List ℚ :=
  (((u.set (idx p.n 0 i) (funAt p.n p.top_bc 0 i)).set
      (idx p.n i (p.n - 1)) (funAt p.n p.right_bc i (p.n - 1))).set
      (idx p.n (p.n - 1) i) (funAt p.n p.bottom_bc (p.n - 1) i)).set
      (idx p.n i 0) (funAt p.n p.left_bc i 0)

def applyBoundaryMpi (p : Params) (uh : List ℚ) : List ℚ :=
  (List.range p.n).foldl (bStepMpi p) uh

/-- Jacobi update of `solve_mpi` (lines 281-283): the source-term
coordinate uses the global row `start_idxs[rank]/n + i`. -/
def mpiStencil (p : Params) (P r : ℕ) (previous : List ℚ) (i j : ℕ) : ℚ :=
  0.25 * (previous.getD (idx p.n (i - 1) j) 0 + previous.getD (idx p.n (i + 1) j) 0 +
          previous.getD (idx p.n i (j - 1)) 0 + previous.getD (idx p.n i (j + 1)) 0 +
          hstep p.n * hstep p.n * funAt p.n p.f (startIdxs p.n P r / p.n + i) j)

/-- One local sweep of rank `r` in `solve_mpi` (lines 276-285):
`i = 1 .. local_rows-2`, `j = 1 .. n-2`. -/
def mpiSweepRank (p : Params) (P r : ℕ) (previous u : List ℚ) : List ℚ :=
  (List.range' 1 (localRows p.n P r - 2)).foldl (fun w i =>
    (List.range' 1 (p.n - 2)).foldl (fun w2 j =>
      w2.set (idx p.n i j) (mpiStencil p P r previous i j)) w) u

/-- Per-rank local residual radicands of one `solve_mpi` iteration
(line 289): `compute_error_serial(local_uh, local_previous, local_rows, n)`
with `local_uh` the post-sweep field and `local_previous` its pre-sweep
copy. -/
def mpiResidualSqs (p : Params) (P : ℕ) (locals : List (List ℚ)) : List ℚ :=
  (List.range P).map (fun r =>
    compute_error_serial_sq p.n
      (mpiSweepRank p P r (locals.getD r []) (locals.getD r []))
      (locals.getD r []) (localRows p.n P r) p.n)

/-- `MPI_Allreduce(..., MPI_MAX, ...)` (line 294): every rank receives
the maximum of all ranks' contributions (0 is a neutral base because
the contributions are sums of squares). -/
def mpi_allreduce_max (xs : List ℚ) : List ℚ :=
  List.replicate xs.length (xs.foldl max 0)

/-- The per-rank convergence decisions `converged = (global_residual < tol)`
(line 296), one entry per rank, each computed from that rank's all-reduce
result. -/
def mpiConvergedFlags (p : Params) (P : ℕ) (locals : List (List ℚ)) : List Bool :=
  (mpi_allreduce_max (mpiResidualSqs p P locals)).map (fun g => sqrtLtB g p.tol)

def rowSeg (u : List ℚ) (n k : ℕ) : List ℚ := (u.drop (k * n)).take n

def setRowSeg (u : List ℚ) (n k : ℕ) (seg : List ℚ) : List ℚ :=
  (List.range n).foldl (fun w t => w.set (k * n + t) (seg.getD t 0)) u

/-- Bidirectional ghost exchange (lines 307-327) under lockstep
semantics: the rows each rank sends (its first and last owned rows,
post-sweep) are never overwritten by its receives, which only write the
two halo rows, so simultaneous exchange is faithful. -/
def exchangeGhost (p : Params) (P : ℕ) (locals : List (List ℚ)) : List (List ℚ) :=
  (List.range P).map (fun r =>
    let u := locals.getD r []
    let u1 := if r + 1 < P then
        setRowSeg u p.n (localRows p.n P r - 1) (rowSeg (locals.getD (r + 1) []) p.n 1)
      else u
    if 0 < r then
      setRowSeg u1 p.n 0 (rowSeg (locals.getD (r - 1) []) p.n (localRows p.n P (r - 1) - 2))
    else u1)

/-- Main loop of `solve_mpi` (lines 270-328), lockstep over all ranks:
sweep, per-rank residuals, max-all-reduce, convergence decision and
`iter` update, ghost exchange (which the source performs before the
loop condition is re-checked, also on the final iteration). -/
def solveMpiLoop (p : Params) (P : ℕ) : ℕ → ℕ → List (List ℚ) → ℕ →
    List (List ℚ) × ℕ × Bool
  | 0, _, locals, iter => (locals, iter, false)
  | fuel + 1, iteration, locals, iter =>
      let news := (List.range P).map (fun r =>
        mpiSweepRank p P r (locals.getD r []) (locals.getD r []))
      let resSqs := mpiResidualSqs p P locals
      let converged := sqrtLtB (resSqs.foldl max 0) p.tol
      let locals2 := exchangeGhost p P news
      if converged then (locals2, iteration + 1, false)
      else if iteration = p.max_iter - 1 then (locals2, iteration + 1, true)
      else solveMpiLoop p P fuel (iteration + 1) locals2 iter

def writeSeg (g : List ℚ) (s : ℕ) (seg : List ℚ) : List ℚ :=
  (List.range seg.length).foldl (fun w t => w.set (s + t) (seg.getD t 0)) g

/-- `MPI_Gatherv` (lines 334-342): each rank's full local slice is
placed back at its scatter offset. -/
def gatherLocals (p : Params) (P : ℕ) (uh : List ℚ) (locals : List (List ℚ)) : List ℚ :=
  (List.range P).foldl (fun g r => writeSeg g (startIdxs p.n P r) (locals.getD r [])) uh

/-- Embedding of `JacobiSolver::solve_mpi` (lines 161-349) as a lockstep
simulation over `P` ranks.  Returns the final global field, `iter`, the
max-iteration warning flag, and whether the `MPI not initialized`
diagnostic was printed (in which case nothing else happens and the
state is returned unchanged). -/
def solve_mpi (ready : Bool) (P : ℕ) (p : Params) (uh : List ℚ) (iter : ℕ) :
    List ℚ × ℕ × Bool × Bool :=
  if ready then
    let uh0 := applyBoundaryMpi p uh
    let locals0 := (List.range P).map (fun r =>
      (uh0.drop (startIdxs p.n P r)).take (countsVal p.n P r))
    let res := solveMpiLoop p P p.max_iter 0 locals0 iter
    (gatherLocals p P uh0 res.1, res.2.1, res.2.2, false)
  else (uh, iter, false, true)

/-- Concrete two-rank local fields for the C5 witness (`pT` has
`n = 4`, so each rank holds `local_rows = 3` rows of 4 entries). -/
def locals5 : List (List ℚ) := [List.replicate 12 (0 : ℚ), List.replicate 12 (0 : ℚ)]

/-- Right-hand side assembly of `solve_direct` (lines 672-709): `b` is
zero-initialized with one entry per interior unknown `idx = i*C + j`
(`W = local_rows - 2` interior rows, `C = n - 2` interior columns); a
neighbor falling outside the strip contributes the corresponding
`local_uh` entry, and every unknown receives
`h^2 * fun_at(f, start_idxs[rank]/n + i + 1, j + 1)`. -/
def directB (p : Params) (P r : ℕ) (local_uh : List ℚ) (local_rows : ℕ) : List ℚ :=
  let W := local_rows - 2
  let C := p.n - 2
  (List.range W).foldl (fun b i =>
    (List.range C).foldl (fun b2 j =>
      let ix := i * C + j
      b2.set ix (b2.getD ix 0 +
        (if i = 0 then local_uh.getD j 0 else 0) +
        (if i = W - 1 then local_uh.getD ((local_rows - 1) * p.n + j) 0 else 0) +
        (if j = 0 then local_uh.getD (i * p.n) 0 else 0) +
        (if j = C - 1 then local_uh.getD (i * p.n + (p.n - 1)) 0 else 0) +
        hstep p.n * hstep p.n *
          funAt p.n p.f (startIdxs p.n P r / p.n + i + 1) (j + 1))) b)
    (List.replicate (W * C) 0)

/-- Triplet list of the local sparse operator of `solve_direct`
(lines 674-710): diagonal `4`, in-strip north/south/east/west
neighbors `-1`, in the source's emplacement order. -/
def directTriplets (p : Params) (local_rows : ℕ) : List (ℕ × ℕ × ℚ) :=
  let W := local_rows - 2
  let C := p.n - 2
  (List.range W).foldl (fun l i =>
    (List.range C).foldl (fun l2 j =>
      let ix := i * C + j
      l2 ++ [(ix, ix, (4 : ℚ))] ++
        (if 0 < i then [(ix, ix - C, (-1 : ℚ))] else []) ++
        (if i < W - 1 then [(ix, ix + C, (-1 : ℚ))] else []) ++
        (if 0 < j then [(ix, ix - 1, (-1 : ℚ))] else []) ++
        (if j < C - 1 then [(ix, ix + 1, (-1 : ℚ))] else [])) l) []

/-- Row `row` of the matrix-vector product `A * x` where `A` is built
from a triplet list (`setFromTriplets` sums duplicate entries). -/
def tripletRow (ts : List (ℕ × ℕ × ℚ)) (x : List ℚ) (row : ℕ) : ℚ :=
  ts.foldl (fun acc t => if t.1 = row then acc + t.2.2 * x.getD t.2.1 0 else acc) 0

/-- Index into the solution vector `x` used by the write-back loop of
`solve_direct` (line 721): `x[(i-1)*working_cols + j]`. -/
def writeBackReadIdx (n i j : ℕ) : ℕ := (i - 1) * (n - 2) + j

/-- Length of the direct-solve solution vector `x`: one entry per
interior unknown, `(local_rows-2)*(n-2)`. -/
def directXLen (local_rows n : ℕ) : ℕ := (local_rows - 2) * (n - 2)

/-- Write-back loop of `solve_direct` (lines 719-721).  Reads of `x`
beyond its length are modelled as `0`; in the C++ they are out-of-bounds
accesses (see the C10 analysis). -/
def directWriteBack (p : Params) (local_rows : ℕ) (x local_uh : List ℚ) : List ℚ :=
  (List.range' 1 (local_rows - 2)).foldl (fun u i =>
    (List.range' 1 (p.n - 2)).foldl (fun u2 j =>
      u2.set (idx p.n i j) (x.getD (writeBackReadIdx p.n i j) 0)) u) local_uh

/-- Problem instance exhibiting the direct-solve off-by-one: `n = 4`,
one rank, `f = 0`, the left boundary callable returns its first
argument, all other callables zero. -/
def p6 : Params :=
  ⟨4, 1, 1, fun _ _ => 0, fun _ _ => 0, fun _ _ => 0, fun _ _ => 0, fun x _ => x⟩

/-- Rank 0's local field for the `p6` instance: the full grid after
`solve_direct`'s boundary assignment. -/
def uh6 : List ℚ := applyBoundaryMpi p6 (List.replicate 16 0)

/-- The exact solution of the local system `A x = b` assembled by
`solve_direct` for the `p6` instance (`SimplicialLLT` returns exactly
this up to round-off; the system is verified inside the theorem). -/
def x6 : List ℚ := [1 / 9, 1 / 18, 7 / 18, 1 / 9]

theorem getD_set_ne (l : List ℚ) (i j : ℕ) (v : ℚ) (h : i ≠ j) :
    (l.set i v).getD j 0 = l.getD j 0 := by
  induction l generalizing i j with
  | nil => simp
  | cons a t ih =>
    cases i with
    | zero =>
      cases j with
      | zero => exact absurd rfl h
      | succ j => simp [List.set, List.getD]
    | succ i =>
      cases j with
      | zero => simp [List.set, List.getD]
      | succ j =>
        simp only [List.set, List.getD_cons_succ]
        exact ih i j (by omega)

theorem getD_set_self (l : List ℚ) (i : ℕ) (v : ℚ) (h : i < l.length) :
    (l.set i v).getD i 0 = v := by
  induction l generalizing i with
  | nil => simp at h
  | cons a t ih =>
    cases i with
    | zero => simp [List.set, List.getD]
    | succ i =>
      simp only [List.set, List.getD_cons_succ]
      exact ih i (by simpa using h)

theorem foldl_length_inv {α : Type} (g : List ℚ → α → List ℚ) (L : List α) (u : List ℚ)
    (h : ∀ w a, (g w a).length = w.length) :
    (L.foldl g u).length = u.length := by
  induction L generalizing u with
  | nil => rfl
  | cons a t ih => rw [List.foldl_cons, ih (g u a), h]

theorem foldl_getD_untouched {α : Type} (g : List ℚ → α → List ℚ) (L : List α)
    (u : List ℚ) (t : ℕ)
    (h : ∀ w a, a ∈ L → (g w a).getD t 0 = w.getD t 0) :
    (L.foldl g u).getD t 0 = u.getD t 0 := by
  induction L generalizing u with
  | nil => rfl
  | cons a tl ih =>
    rw [List.foldl_cons, ih (g u a) (fun w b hb => h w b (List.mem_cons_of_mem _ hb)),
      h u a (List.mem_cons_self _ _)]

theorem foldl_getD_split {α : Type} (g : List ℚ → α → List ℚ) (L1 L2 : List α)
    (a0 : α) (t : ℕ) (v : ℚ) (u : List ℚ)
    (hlen : ∀ w a, (g w a).length = w.length)
    (hset : ∀ w, w.length = u.length → (g w a0).getD t 0 = v)
    (hafter : ∀ w a, a ∈ L2 → (g w a).getD t 0 = w.getD t 0) :
    ((L1 ++ a0 :: L2).foldl g u).getD t 0 = v := by
  rw [List.foldl_append, List.foldl_cons,
    foldl_getD_untouched g L2 _ t hafter,
    hset _ (foldl_length_inv g L1 u hlen)]

theorem range'_split (s l i0 : ℕ) (hlo : s ≤ i0) (hhi : i0 < s + l) :
    List.range' s l = List.range' s (i0 - s) ++ i0 :: List.range' (i0 + 1) (s + l - i0 - 1) := by
  have e1 : i0 :: List.range' (i0 + 1) (s + l - i0 - 1) = List.range' i0 (s + l - i0) := by
    have h2 : s + l - i0 = (s + l - i0 - 1) + 1 := by omega
    rw [h2, List.range'_succ]
    simp
  rw [e1]
  have e2 := List.range'_append_1 s (i0 - s) (s + l - i0)
  have h3 : s + (i0 - s) = i0 := by omega
  rw [h3] at e2
  rw [e2]
  congr 1
  omega

theorem range_split (n i0 : ℕ) (h : i0 < n) :
    List.range n = List.range i0 ++ i0 :: List.range' (i0 + 1) (n - i0 - 1) := by
  rw [List.range_eq_range', List.range_eq_range',
    range'_split 0 n i0 (by omega) (by omega)]
  simp

theorem idx_lt {n i j : ℕ} (hi : i < n) (hj : j < n) : idx n i j < n * n := by
  unfold idx
  calc i * n + j < i * n + n := by omega
    _ = (i + 1) * n := by ring
    _ ≤ n * n := Nat.mul_le_mul_right n (by omega)

theorem idx_div {n i j : ℕ} (hn : 0 < n) (hj : j < n) : idx n i j / n = i := by
  unfold idx
  rw [Nat.add_comm, Nat.mul_comm, Nat.add_mul_div_left _ _ hn, Nat.div_eq_of_lt hj]
  omega

theorem idx_mod {n i j : ℕ} (hj : j < n) : idx n i j % n = j := by
  unfold idx
  rw [Nat.add_comm, Nat.mul_comm, Nat.add_mul_mod_self_left, Nat.mod_eq_of_lt hj]

theorem idx_inj {n i j i2 j2 : ℕ} (hj : j < n) (hj2 : j2 < n) :
    idx n i j = idx n i2 j2 ↔ i = i2 ∧ j = j2 := by
  constructor
  · intro h
    have hn : 0 < n := by omega
    refine ⟨?_, ?_⟩
    · rw [← idx_div hn hj (i := i), h, idx_div hn hj2]
    · rw [← idx_mod hj (i := i), h, idx_mod hj2]
  · rintro ⟨rfl, rfl⟩
    rfl

theorem idx_ne {n i j i2 j2 : ℕ} (hj : j < n) (hj2 : j2 < n)
    (h : ¬(i = i2 ∧ j = j2)) : idx n i j ≠ idx n i2 j2 :=
  fun he => h ((idx_inj hj hj2).mp he)

theorem bStep_length (p : Params) (u : List ℚ) (a : ℕ) :
    (bStep p u a).length = u.length := by
  simp [bStep]

theorem applyBoundarySerial_getD (p : Params) (uh : List ℚ) (hn : 2 ≤ p.n)
    (hlen : uh.length = p.n * p.n) {i j : ℕ} (hi : i < p.n) (hj : j < p.n)
    (hb : i = 0 ∨ i = p.n - 1 ∨ j = 0 ∨ j = p.n - 1) :
    (applyBoundarySerial p uh).getD (idx p.n i j) 0 = boundaryValSerial p i j := by
  have hn0 : 0 < p.n := by omega
  unfold applyBoundarySerial boundaryValSerial
  by_cases hj0 : j = 0
  · subst hj0
    rw [if_pos rfl, range_split p.n i hi]
    apply foldl_getD_split _ _ _ _ _ _ _ (bStep_length p)
    · intro w hw
      unfold bStep
      rw [getD_set_self]
      simp only [List.length_set, hw, hlen]
      exact idx_lt hi hn0
    · intro w a ha
      rw [List.mem_range'_1] at ha
      unfold bStep
      rw [getD_set_ne _ _ _ _ (idx_ne hn0 hn0 (by omega)),
        getD_set_ne _ _ _ _ (idx_ne (by omega) hn0 (by omega)),
        getD_set_ne _ _ _ _ (idx_ne (by omega) hn0 (by omega)),
        getD_set_ne _ _ _ _ (idx_ne (by omega) hn0 (by omega))]
  · rw [if_neg hj0]
    by_cases hin : i = p.n - 1
    · subst hin
      rw [if_pos rfl, range_split p.n j hj]
      apply foldl_getD_split _ _ _ _ _ _ _ (bStep_length p)
      · intro w hw
        unfold bStep
        rw [getD_set_ne _ _ _ _ (idx_ne hn0 hj (by omega)),
          getD_set_self]
        simp only [List.length_set, hw, hlen]
        exact idx_lt (by omega) hj
      · intro w a ha
        rw [List.mem_range'_1] at ha
        unfold bStep
        rw [getD_set_ne _ _ _ _ (idx_ne hn0 hj (by omega)),
          getD_set_ne _ _ _ _ (idx_ne (by omega) hj (by omega)),
          getD_set_ne _ _ _ _ (idx_ne (by omega) hj (by omega)),
          getD_set_ne _ _ _ _ (idx_ne (by omega) hj (by omega))]
    · rw [if_neg hin]
      by_cases hi0 : i = 0
      · subst hi0
        rw [if_pos rfl, range_split p.n j hj]
        apply foldl_getD_split _ _ _ _ _ _ _ (bStep_length p)
        · intro w hw
          unfold bStep
          rw [getD_set_ne _ _ _ _ (idx_ne hn0 hj (by omega)),
            getD_set_ne _ _ _ _ (idx_ne (by omega) hj (by omega)),
            getD_set_ne _ _ _ _ (idx_ne (by omega) hj (by omega)),
            getD_set_self]
          simp only [List.length_set, hw, hlen]
          exact idx_lt hn0 hj
        · intro w a ha
          rw [List.mem_range'_1] at ha
          unfold bStep
          rw [getD_set_ne _ _ _ _ (idx_ne hn0 hj (by omega)),
            getD_set_ne _ _ _ _ (idx_ne (by omega) hj (by omega)),
            getD_set_ne _ _ _ _ (idx_ne (by omega) hj (by omega)),
            getD_set_ne _ _ _ _ (idx_ne (by omega) hj (by omega))]
      · rw [if_neg hi0]
        have hjn : j = p.n - 1 := by omega
        subst hjn
        rw [range_split p.n i hi]
        apply foldl_getD_split _ _ _ _ _ _ _ (bStep_length p)
        · intro w hw
          unfold bStep
          rw [getD_set_ne _ _ _ _ (idx_ne hn0 (by omega) (by omega)),
            getD_set_ne _ _ _ _ (idx_ne (by omega) (by omega) (by omega)),
            getD_set_self]
          simp only [List.length_set, hw, hlen]
          exact idx_lt hi (by omega)
        · intro w a ha
          rw [List.mem_range'_1] at ha
          unfold bStep
          rw [getD_set_ne _ _ _ _ (idx_ne hn0 (by omega) (by omega)),
            getD_set_ne _ _ _ _ (idx_ne (by omega) (by omega) (by omega)),
            getD_set_ne _ _ _ _ (idx_ne (by omega) (by omega) (by omega)),
            getD_set_ne _ _ _ _ (idx_ne (by omega) (by omega) (by omega))]

theorem sweepSerial_getD_interior (p : Params) (previous uh : List ℚ)
    (hlen : uh.length = p.n * p.n) {i j : ℕ}
    (hi1 : 1 ≤ i) (hi2 : i ≤ p.n - 2) (hj1 : 1 ≤ j) (hj2 : j ≤ p.n - 2) (hn : 3 ≤ p.n) :
    (sweepSerial p previous uh).getD (idx p.n i j) 0 = stencil p previous i j := by
  unfold sweepSerial
  rw [range'_split 1 (p.n - 2) i hi1 (by omega)]
  apply foldl_getD_split _ _ _ _ _ _ _
    (fun w a => foldl_length_inv _ _ w (fun w2 b => by simp))
  · intro w hw
    rw [range'_split 1 (p.n - 2) j hj1 (by omega)]
    apply foldl_getD_split _ _ _ _ _ _ _ (fun w2 b => by simp)
    · intro w2 hw2
      rw [getD_set_self]
      rw [hw2, hw, hlen]
      exact idx_lt (by omega) (by omega)
    · intro w2 b hb
      rw [List.mem_range'_1] at hb
      exact getD_set_ne _ _ _ _ (idx_ne (by omega) (by omega) (by omega))
  · intro w a ha
    rw [List.mem_range'_1] at ha
    apply foldl_getD_untouched
    intro w2 b hb
    rw [List.mem_range'_1] at hb
    exact getD_set_ne _ _ _ _ (idx_ne (by omega) (by omega) (by omega))

theorem sweepSerial_getD_not_interior (p : Params) (previous uh : List ℚ) {i j : ℕ}
    (hi : i < p.n) (hj : j < p.n)
    (hni : ¬(1 ≤ i ∧ i ≤ p.n - 2 ∧ 1 ≤ j ∧ j ≤ p.n - 2)) :
    (sweepSerial p previous uh).getD (idx p.n i j) 0 = uh.getD (idx p.n i j) 0 := by
  unfold sweepSerial
  apply foldl_getD_untouched
  intro w a ha
  rw [List.mem_range'_1] at ha
  apply foldl_getD_untouched
  intro w2 b hb
  rw [List.mem_range'_1] at hb
  exact getD_set_ne _ _ _ _ (idx_ne (by omega) (by omega) (by omega))

theorem sweepSerial_length (p : Params) (previous uh : List ℚ) :
    (sweepSerial p previous uh).length = uh.length := by
  unfold sweepSerial
  apply foldl_length_inv
  intro w a
  apply foldl_length_inv
  intro w2 b
  simp

/-- C1: for `n ≥ 3`, one interior pass of `solve_serial` writes to each
interior cell `(i, j)` with `1 ≤ i, j ≤ n-2` exactly
`0.25 * (previous[i-1,j] + previous[i+1,j] + previous[i,j-1] + previous[i,j+1]
+ h^2 * f(i/(n-1), j/(n-1)))`, where every read comes from the `previous`
snapshot, and it modifies no non-interior cell. -/
theorem C1_serial_sweep (p : Params) (previous uh : List ℚ) (hn : 3 ≤ p.n)
    (hlen : uh.length = p.n * p.n) :
    (∀ i j, 1 ≤ i → i ≤ p.n - 2 → 1 ≤ j → j ≤ p.n - 2 →
      (sweepSerial p previous uh).getD (idx p.n i j) 0 =
        0.25 * (previous.getD (idx p.n (i - 1) j) 0 + previous.getD (idx p.n (i + 1) j) 0 +
          previous.getD (idx p.n i (j - 1)) 0 + previous.getD (idx p.n i (j + 1)) 0 +
          hstep p.n * hstep p.n *
            p.f ((i : ℚ) / ((p.n : ℚ) - 1)) ((j : ℚ) / ((p.n : ℚ) - 1)))) ∧
    (∀ i j, i < p.n → j < p.n → ¬(1 ≤ i ∧ i ≤ p.n - 2 ∧ 1 ≤ j ∧ j ≤ p.n - 2) →
      (sweepSerial p previous uh).getD (idx p.n i j) 0 = uh.getD (idx p.n i j) 0) := by
  constructor
  · intro i j hi1 hi2 hj1 hj2
    rw [sweepSerial_getD_interior p previous uh hlen hi1 hi2 hj1 hj2 hn]
    rfl
  · intro i j hi hj hni
    exact sweepSerial_getD_not_interior p previous uh hi hj hni

theorem C1_serial_sweep_witness :
    (3 ≤ pT.n ∧ prevT.length = pT.n * pT.n) ∧
    (sweepSerial pT prevT prevT).getD (idx pT.n 1 1) 0 =
      0.25 * (prevT.getD (idx pT.n 0 1) 0 + prevT.getD (idx pT.n 2 1) 0 +
        prevT.getD (idx pT.n 1 0) 0 + prevT.getD (idx pT.n 1 2) 0 +
        hstep pT.n * hstep pT.n *
          pT.f ((1 : ℚ) / ((pT.n : ℚ) - 1)) ((1 : ℚ) / ((pT.n : ℚ) - 1))) :=
  ⟨⟨by decide, by decide⟩,
    (C1_serial_sweep pT prevT prevT (by decide) (by decide)).1 1 1
      (by decide) (by decide) (by decide) (by decide)⟩

theorem iterateSweep_boundary (p : Params) (uh : List ℚ) (hn : 2 ≤ p.n)
    (hlen : uh.length = p.n * p.n) (k : ℕ) {i j : ℕ} (hi : i < p.n) (hj : j < p.n)
    (hb : i = 0 ∨ i = p.n - 1 ∨ j = 0 ∨ j = p.n - 1) :
    (iterateSweep p (applyBoundarySerial p uh) k).getD (idx p.n i j) 0 =
      boundaryValSerial p i j := by
  induction k with
  | zero => exact applyBoundarySerial_getD p uh hn hlen hi hj hb
  | succ k ih =>
    show (sweepSerial p _ _).getD _ 0 = _
    rw [sweepSerial_getD_not_interior p _ _ hi hj (by omega), ih]

/-- C4 (amended): after any number of serial sweeps, every boundary
cell still holds exactly the value written by `solve_serial`'s boundary
pass (interior updates never touch boundary cells); that value is
`boundaryValSerial`, i.e. the top callable at `(j/(n-1), 1)` on the top
row, the bottom callable at `(j/(n-1), 0)` on the bottom row, the left
callable at `(0, i/(n-1))` on the whole left column, and the right
callable at `(1, i/(n-1))` on the interior rows' right-end cells — not
the callable evaluated at the cell's own normalized coordinates
`(i/(n-1), j/(n-1))` as the claim states. -/
theorem C4_boundary_preserved (p : Params) (uh : List ℚ) (hn : 2 ≤ p.n)
    (hlen : uh.length = p.n * p.n) :
    ∀ k i j, i < p.n → j < p.n → (i = 0 ∨ i = p.n - 1 ∨ j = 0 ∨ j = p.n - 1) →
      (iterateSweep p (applyBoundarySerial p uh) k).getD (idx p.n i j) 0 =
        boundaryValSerial p i j :=
  fun k i j hi hj hb => iterateSweep_boundary p uh hn hlen k hi hj hb

theorem C4_boundary_preserved_witness :
    (2 ≤ pT.n ∧ (List.replicate 16 (0 : ℚ)).length = pT.n * pT.n) ∧
    (iterateSweep pT (applyBoundarySerial pT (List.replicate 16 (0 : ℚ))) 2).getD
      (idx pT.n 0 1) 0 = boundaryValSerial pT 0 1 :=
  ⟨⟨by decide, by decide⟩,
    C4_boundary_preserved pT (List.replicate 16 (0 : ℚ)) (by decide) (by decide)
      2 0 1 (by decide) (by decide) (by decide)⟩

/-- C4 as stated is false: after one sweep (indeed already after the
boundary pass), boundary cell `(1, 0)` of the `n = 3` instance `pC4`
holds `left_bc(0, 1/2) = 1/2`, while the left callable evaluated at the
cell's own normalized coordinates `(i/(n-1), j/(n-1)) = (1/2, 0)`
returns `0`. -/
theorem C4_counterexample :
    (iterateSweep pC4 (applyBoundarySerial pC4 (List.replicate 9 (0 : ℚ))) 1).getD
      (idx 3 1 0) 0 = 1 / 2 ∧
    pC4.left_bc ((1 : ℚ) / ((3 : ℚ) - 1)) ((0 : ℚ) / ((3 : ℚ) - 1)) = 0 ∧
    ((1 : ℚ) / 2) ≠ 0 := by
  refine ⟨?_, by norm_num [pC4], by norm_num⟩
  norm_num [iterateSweep, sweepSerial, sweepRow, applyBoundarySerial, bStep, stencil,
    funAt, hstep, idx, pC4, List.replicate, show List.range 3 = [0, 1, 2] by rfl,
    show List.range' 1 1 = [1] by rfl]

/-- C8 (amended): in `solve_serial`'s boundary pass the statement order
top, right, bottom, left inside one loop over `i` makes the LEFT
callable win both left-column corners, the top callable win corner
`(0, n-1)`, and the bottom callable win corner `(n-1, n-1)`; the
horizontal edges do not win all four corners. -/
theorem C8_corner_convention (p : Params) (uh : List ℚ) (hn : 2 ≤ p.n)
    (hlen : uh.length = p.n * p.n) :
    (applyBoundarySerial p uh).getD (idx p.n 0 0) 0 = funAt p.n p.left_bc 0 0 ∧
    (applyBoundarySerial p uh).getD (idx p.n 0 (p.n - 1)) 0 =
      funAt p.n p.top_bc (p.n - 1) (p.n - 1) ∧
    (applyBoundarySerial p uh).getD (idx p.n (p.n - 1) 0) 0 =
      funAt p.n p.left_bc 0 (p.n - 1) ∧
    (applyBoundarySerial p uh).getD (idx p.n (p.n - 1) (p.n - 1)) 0 =
      funAt p.n p.bottom_bc (p.n - 1) 0 := by
  refine ⟨?_, ?_, ?_, ?_⟩
  · rw [applyBoundarySerial_getD p uh hn hlen (by omega) (by omega) (by omega)]
    unfold boundaryValSerial
    rw [if_pos rfl]
  · rw [applyBoundarySerial_getD p uh hn hlen (by omega) (by omega) (by omega)]
    unfold boundaryValSerial
    rw [if_neg (by omega), if_neg (by omega), if_pos rfl]
  · rw [applyBoundarySerial_getD p uh hn hlen (by omega) (by omega) (by omega)]
    unfold boundaryValSerial
    rw [if_pos rfl]
  · rw [applyBoundarySerial_getD p uh hn hlen (by omega) (by omega) (by omega)]
    unfold boundaryValSerial
    rw [if_neg (by omega), if_pos rfl]

theorem C8_corner_convention_witness :
    (2 ≤ pT.n ∧ (List.replicate 16 (0 : ℚ)).length = pT.n * pT.n) ∧
    ((applyBoundarySerial pT (List.replicate 16 (0 : ℚ))).getD (idx pT.n 0 0) 0 =
        funAt pT.n pT.left_bc 0 0 ∧
      (applyBoundarySerial pT (List.replicate 16 (0 : ℚ))).getD (idx pT.n 0 (pT.n - 1)) 0 =
        funAt pT.n pT.top_bc (pT.n - 1) (pT.n - 1) ∧
      (applyBoundarySerial pT (List.replicate 16 (0 : ℚ))).getD (idx pT.n (pT.n - 1) 0) 0 =
        funAt pT.n pT.left_bc 0 (pT.n - 1) ∧
      (applyBoundarySerial pT (List.replicate 16 (0 : ℚ))).getD
          (idx pT.n (pT.n - 1) (pT.n - 1)) 0 =
        funAt pT.n pT.bottom_bc (pT.n - 1) 0) :=
  ⟨⟨by decide, by decide⟩,
    C8_corner_convention pT (List.replicate 16 (0 : ℚ)) (by decide) (by decide)⟩

/-- C8 as stated is false: for `pC8` the corner cell `(0, 0)` ends up
holding `7`, the value of the LEFT callable, while the top and bottom
callables are constantly `0`, so no horizontal-edge evaluation can have
produced it. -/
theorem C8_counterexample :
    (applyBoundarySerial pC8 (List.replicate 9 (0 : ℚ))).getD (idx 3 0 0) 0 = 7 ∧
    pC8.top_bc 0 0 = 0 ∧ pC8.top_bc 0 1 = 0 ∧ pC8.top_bc 1 1 = 0 ∧
    pC8.bottom_bc 0 0 = 0 ∧ pC8.bottom_bc 1 0 = 0 ∧ ((7 : ℚ) ≠ 0) := by
  refine ⟨?_, by norm_num [pC8], by norm_num [pC8], by norm_num [pC8],
    by norm_num [pC8], by norm_num [pC8], by norm_num⟩
  norm_num [applyBoundarySerial, bStep, funAt, idx, pC8, List.replicate,
    show List.range 3 = [0, 1, 2] by rfl]

theorem solveSerialLoop_spec (p : Params) (u0 : List ℚ) :
    ∀ fuel it itr, 1 ≤ fuel → fuel + it = p.max_iter →
      ((∀ k, it ≤ k → k < p.max_iter → convAt p u0 k = false) →
        solveSerialLoop p fuel it (iterateSweep p u0 it) itr =
          (iterateSweep p u0 p.max_iter, p.max_iter, true)) ∧
      (∀ k0, it ≤ k0 → k0 < p.max_iter → convAt p u0 k0 = true →
        (∀ k, it ≤ k → k < k0 → convAt p u0 k = false) →
        solveSerialLoop p fuel it (iterateSweep p u0 it) itr =
          (iterateSweep p u0 (k0 + 1), k0 + 1, false)) := by
  intro fuel
  induction fuel with
  | zero => intro it itr h1 _; omega
  | succ fuel ih =>
    intro it itr _ hsum
    have e : sweepSerial p (iterateSweep p u0 it) (iterateSweep p u0 it) =
        iterateSweep p u0 (it + 1) := rfl
    have hc : sqrtLtB (compute_error_serial_sq p.n (iterateSweep p u0 (it + 1))
        (iterateSweep p u0 it) p.n p.n) p.tol = convAt p u0 it := rfl
    constructor
    · intro hnone
      have hcf : convAt p u0 it = false := hnone it le_rfl (by omega)
      simp only [solveSerialLoop, e, hc, hcf]
      simp only [Bool.false_eq_true, if_false]
      by_cases hit : it = p.max_iter - 1
      · rw [if_pos hit]
        have : it + 1 = p.max_iter := by omega
        rw [this]
      · rw [if_neg hit]
        exact (ih (it + 1) itr (by omega) (by omega)).1
          (fun k hk1 hk2 => hnone k (by omega) hk2)
    · intro k0 hk0lo hk0hi hk0t hmin
      by_cases hk0 : k0 = it
      · subst hk0
        simp only [solveSerialLoop, e, hc, hk0t, if_true]
      · have hcf : convAt p u0 it = false := by
          by_contra hcc
          have : convAt p u0 it = true := by
            cases h : convAt p u0 it
            · exact absurd h hcc
            · rfl
          have hlt : it < k0 := by omega
          have := hmin it le_rfl hlt
          rw [this] at ‹convAt p u0 it = true›
          exact Bool.noConfusion ‹(false : Bool) = true›
        simp only [solveSerialLoop, e, hc, hcf]
        simp only [Bool.false_eq_true, if_false]
        have hit : ¬(it = p.max_iter - 1) := by omega
        rw [if_neg hit]
        exact (ih (it + 1) itr (by omega) (by omega)).2 k0 (by omega) hk0hi hk0t
          (fun k hk1 hk2 => hmin k (by omega) hk2)

/-- C2: with `max_iter ≥ 1`, `solve_serial` exits declaring convergence
exactly when some sweep's residual `l2_diff(u, u_prev, n, n)` first
drops strictly below `tol` (embedded on the radicand by `sqrtLtB`): in
that case it returns the iterate after `k0 + 1` sweeps with
`iter = k0 + 1` and no warning; if all `max_iter` sweeps fail the test
it returns the `max_iter`-th iterate, records `iter = max_iter`, and
emits the warning. -/
theorem C2_serial_convergence (p : Params) (uh : List ℚ) (itr : ℕ)
    (hmax : 1 ≤ p.max_iter) :
    ((∀ k, k < p.max_iter → convAt p (applyBoundarySerial p uh) k = false) →
      solve_serial p uh itr =
        (iterateSweep p (applyBoundarySerial p uh) p.max_iter, p.max_iter, true)) ∧
    (∀ k0, k0 < p.max_iter → convAt p (applyBoundarySerial p uh) k0 = true →
      (∀ k, k < k0 → convAt p (applyBoundarySerial p uh) k = false) →
      solve_serial p uh itr =
        (iterateSweep p (applyBoundarySerial p uh) (k0 + 1), k0 + 1, false)) := by
  have h := solveSerialLoop_spec p (applyBoundarySerial p uh) p.max_iter 0 itr
    (by omega) (by omega)
  constructor
  · intro hnone
    exact h.1 (fun k _ hk => hnone k hk)
  · intro k0 hk0 ht hmin
    exact h.2 k0 (Nat.zero_le k0) hk0 ht (fun k _ hk => hmin k hk)

theorem C2_serial_convergence_witness :
    (1 ≤ pW2.max_iter ∧ 0 < pW2.max_iter ∧
      convAt pW2 (applyBoundarySerial pW2 (List.replicate 9 (0 : ℚ))) 0 = true) ∧
    solve_serial pW2 (List.replicate 9 (0 : ℚ)) 5 =
      (iterateSweep pW2 (applyBoundarySerial pW2 (List.replicate 9 (0 : ℚ))) 1, 1, false) := by
  have hconv : convAt pW2 (applyBoundarySerial pW2 (List.replicate 9 (0 : ℚ))) 0 = true := by
    norm_num [convAt, sqrtLtB, compute_error_serial_sq, iterateSweep, sweepSerial, sweepRow,
      applyBoundarySerial, bStep, stencil, funAt, hstep, idx, pW2, List.replicate,
      show List.range 3 = [0, 1, 2] by rfl, show List.range' 1 1 = [1] by rfl]
  exact ⟨⟨by decide, by decide, hconv⟩,
    (C2_serial_convergence pW2 (List.replicate 9 (0 : ℚ)) 5 (by decide)).2 0
      (by decide) hconv (fun k hk => absurd hk (by omega))⟩

theorem sqrtLtB_correct (S tol : ℚ) :
    sqrtLtB S tol = true ↔ Real.sqrt ((S : ℝ)) < ((tol : ℚ) : ℝ) := by
  unfold sqrtLtB
  rw [decide_eq_true_eq]
  constructor
  · rintro ⟨ht, hlt⟩
    have ht2 : (0 : ℝ) < ((tol : ℚ) : ℝ) := by exact_mod_cast ht
    rw [Real.sqrt_lt' ht2]
    have hlt2 : ((S : ℚ) : ℝ) < ((tol * tol : ℚ) : ℝ) := by exact_mod_cast hlt
    push_cast at hlt2
    nlinarith [hlt2]
  · intro h
    have h0 : (0 : ℝ) ≤ Real.sqrt ((S : ℚ) : ℝ) := Real.sqrt_nonneg _
    have ht2 : (0 : ℝ) < ((tol : ℚ) : ℝ) := lt_of_le_of_lt h0 h
    have ht : 0 < tol := by exact_mod_cast ht2
    refine ⟨ht, ?_⟩
    rw [Real.sqrt_lt' ht2] at h
    have h2 : ((S : ℚ) : ℝ) < ((tol * tol : ℚ) : ℝ) := by push_cast; nlinarith [h]
    exact_mod_cast h2

theorem foldl_add_range (m : ℕ) (c : ℚ) (g : ℕ → ℚ) :
    (List.range m).foldl (fun e k => e + g k) c = c + ∑ k ∈ Finset.range m, g k := by
  induction m generalizing c with
  | zero => simp
  | succ m ih =>
    rw [List.range_succ, List.foldl_append, ih, List.foldl_cons, List.foldl_nil,
      Finset.sum_range_succ]
    ring

theorem compute_error_serial_sq_eq (n : ℕ) (a b : List ℚ) (rows : ℕ) :
    compute_error_serial_sq n a b rows n =
      (1 / ((n : ℚ) - 1)) * ∑ i ∈ Finset.range rows, ∑ j ∈ Finset.range n,
        (a.getD (idx n i j) 0 - b.getD (idx n i j) 0) ^ 2 := by
  unfold compute_error_serial_sq
  have hin : ∀ (e : ℚ) (i : ℕ),
      (List.range n).foldl (fun e2 j =>
        e2 + (a.getD (idx n i j) 0 - b.getD (idx n i j) 0) *
             (a.getD (idx n i j) 0 - b.getD (idx n i j) 0)) e =
      e + ∑ j ∈ Finset.range n,
        (a.getD (idx n i j) 0 - b.getD (idx n i j) 0) ^ 2 := by
    intro e i
    rw [foldl_add_range]
    congr 1
    apply Finset.sum_congr rfl
    intro j _
    ring
  simp only [hin]
  rw [foldl_add_range]
  ring

/-- C3: the residual routine `compute_error_serial(a, b, rows, cols)`
with `cols` equal to the row stride `n` returns
`sqrt((1/(n-1)) * Σ (a[i,j]-b[i,j])^2)` over the `rows × n` region: the
scale factor is `1/(n-1)`, not `h^2 = 1/(n-1)^2`.  The returned value is
stated through `Real.sqrt` applied to the embedded radicand. -/
theorem C3_l2_diff_formula (n : ℕ) (a b : List ℚ) (rows cols : ℕ) (hc : cols = n) :
    Real.sqrt ((compute_error_serial_sq n a b rows cols : ℚ) : ℝ) =
      Real.sqrt ((1 / ((n : ℝ) - 1)) *
        ∑ i ∈ Finset.range rows, ∑ j ∈ Finset.range n,
          (((a.getD (idx n i j) 0 : ℚ) : ℝ) - ((b.getD (idx n i j) 0 : ℚ) : ℝ)) ^ 2) := by
  subst hc
  rw [compute_error_serial_sq_eq]
  congr 1
  push_cast
  ring

theorem C3_l2_diff_formula_witness :
    (2 = 2) ∧
    Real.sqrt ((compute_error_serial_sq 2 [1, 2, 3, 4] [0, 2, 3, 4] 1 2 : ℚ) : ℝ) =
      Real.sqrt ((1 / ((2 : ℝ) - 1)) *
        ∑ i ∈ Finset.range 1, ∑ j ∈ Finset.range 2,
          ((((([1, 2, 3, 4] : List ℚ).getD (idx 2 i j) 0 : ℚ)) : ℝ) -
            ((([0, 2, 3, 4] : List ℚ).getD (idx 2 i j) 0 : ℚ) : ℝ)) ^ 2) :=
  ⟨rfl, C3_l2_diff_formula 2 [1, 2, 3, 4] [0, 2, 3, 4] 1 2 rfl⟩

theorem remainder_lt (n P : ℕ) (hP : 0 < P) : remainder n P < P := by
  unfold remainder
  have h := Nat.div_add_mod n P
  have h2 := Nat.mod_lt n hP
  rw [Nat.mul_comm]
  omega

theorem rowsOwned_pos (n P r : ℕ) (hP : 0 < P) (hn : P ≤ n) : 1 ≤ rowsOwned n P r := by
  unfold rowsOwned countDiv
  have h1 : 1 ≤ n / P := (Nat.one_le_div_iff hP).mpr hn
  split <;> omega

theorem counts_eq_localRows (n P : ℕ) (hP : 2 ≤ P) (r : ℕ) (hr : r < P) :
    countsVal n P r = localRows n P r * n := by
  unfold countsVal localRows rowsOwned
  rw [if_pos (by omega : 1 < P), if_pos (by omega : 1 < P)]
  by_cases h0 : r = 0
  · subst h0
    rw [if_pos rfl, if_pos (Or.inl rfl)]
    by_cases hrem : 0 < remainder n P
    · rw [if_pos hrem, if_pos hrem]
    · rw [if_neg hrem, if_neg (by omega)]
  · rw [if_neg h0]
    by_cases hl : r = P - 1
    · rw [if_pos hl, if_pos (Or.inr hl)]
      subst hl
      by_cases hrem : P - 1 < remainder n P
      · rw [if_pos hrem, if_pos hrem]
      · rw [if_neg hrem, if_neg hrem]
    · rw [if_neg hl, if_neg (by omega : ¬(r = 0 ∨ r = P - 1))]
      by_cases hrem : r < remainder n P
      · rw [if_pos hrem, if_pos hrem]
      · rw [if_neg hrem, if_neg hrem]

theorem localRows_ge_two (n P r : ℕ) (hP : 2 ≤ P) (hn : P ≤ n) :
    2 ≤ localRows n P r := by
  unfold localRows
  rw [if_pos (by omega : 1 < P)]
  have h1 : 1 ≤ rowsOwned n P r := rowsOwned_pos n P r (by omega) hn
  split <;> omega

theorem startIdxs_halo (n P : ℕ) (hP : 2 ≤ P) (hn : P ≤ n) :
    ∀ r, r < P → startIdxs n P r + (if r = 0 then 0 else 1) * n = rowStart n P r * n := by
  intro r
  induction r with
  | zero => intro _; simp [startIdxs, rowStart]
  | succ r ih =>
    intro hr
    have hIH := ih (by omega)
    have hL : localRows n P r * n = rowsOwned n P r * n + (if r = 0 then 0 else 1) * n + n := by
      unfold localRows
      rw [if_pos (by omega : 1 < P)]
      have he : (if r = 0 ∨ r = P - 1 then 1 else 2) = (if r = 0 then 0 else 1) + 1 := by
        by_cases h0 : r = 0
        · subst h0; rw [if_pos (Or.inl rfl), if_pos rfl]
        · rw [if_neg h0, if_neg (by omega : ¬(r = 0 ∨ r = P - 1))]
      rw [he]
      ring
    have hrows : n ≤ rowsOwned n P r * n := by
      have h2 : 1 ≤ rowsOwned n P r := rowsOwned_pos n P r (by omega) hn
      calc n = 1 * n := (one_mul n).symm
        _ ≤ rowsOwned n P r * n := Nat.mul_le_mul_right n h2
    have hcounts : countsVal n P r = localRows n P r * n :=
      counts_eq_localRows n P hP r (by omega)
    have hrs : rowStart n P (r + 1) * n = rowStart n P r * n + rowsOwned n P r * n := by
      show (rowStart n P r + rowsOwned n P r) * n = _
      ring
    show startIdxs n P r + (countsVal n P r - 2 * n) + (if r + 1 = 0 then 0 else 1) * n = _
    rw [if_neg (by omega : ¬(r + 1 = 0)), hcounts, hL, hrs]
    omega

/-- C7 (amended): for `P ≥ 2` ranks and `n ≥ P`, rank 0's slice starts
at offset 0, every rank's slice length is `local_rows · n` (halo rows
included: slice `r` starts one row before `row_start(r)` for `r > 0`),
and each subsequent slice starts `(local_rows_prev − 2)·n` — NOT
`(local_rows_prev − 1)·n` — after the previous one, so adjacent slices
overlap by exactly TWO rows (`s_{r+1} + 2n = s_r + counts_r`): each
neighbor's halo row duplicates an owned row of the other rank. -/
theorem C7_scatter_layout (n P : ℕ) (hP : 2 ≤ P) (hn : P ≤ n) :
    startIdxs n P 0 = 0 ∧
    (∀ r, r < P → countsVal n P r = localRows n P r * n) ∧
    (∀ r, r + 1 < P →
      startIdxs n P (r + 1) = startIdxs n P r + (localRows n P r - 2) * n ∧
      startIdxs n P (r + 1) + 2 * n = startIdxs n P r + countsVal n P r) ∧
    (∀ r, r < P → startIdxs n P r + (if r = 0 then 0 else 1) * n = rowStart n P r * n) := by
  refine ⟨rfl, fun r hr => counts_eq_localRows n P hP r hr, fun r hr => ⟨?_, ?_⟩,
    startIdxs_halo n P hP hn⟩
  · show startIdxs n P r + (countsVal n P r - 2 * n) = _
    rw [counts_eq_localRows n P hP r (by omega), Nat.sub_mul]
  · have hc : countsVal n P r = localRows n P r * n := counts_eq_localRows n P hP r (by omega)
    have hL : 2 ≤ localRows n P r := localRows_ge_two n P r hP hn
    have h2n : 2 * n ≤ countsVal n P r := by
      rw [hc]
      exact Nat.mul_le_mul_right n hL
    show startIdxs n P r + (countsVal n P r - 2 * n) + 2 * n = _
    omega

theorem C7_scatter_layout_witness :
    (2 ≤ 3 ∧ 3 ≤ 5) ∧ startIdxs 5 3 0 = 0 ∧
    countsVal 5 3 1 = localRows 5 3 1 * 5 ∧
    (startIdxs 5 3 1 = startIdxs 5 3 0 + (localRows 5 3 0 - 2) * 5 ∧
      startIdxs 5 3 1 + 2 * 5 = startIdxs 5 3 0 + countsVal 5 3 0) ∧
    startIdxs 5 3 2 + (if 2 = 0 then 0 else 1) * 5 = rowStart 5 3 2 * 5 :=
  ⟨⟨by decide, by decide⟩, (C7_scatter_layout 5 3 (by decide) (by decide)).1,
    (C7_scatter_layout 5 3 (by decide) (by decide)).2.1 1 (by decide),
    (C7_scatter_layout 5 3 (by decide) (by decide)).2.2.1 0 (by decide),
    (C7_scatter_layout 5 3 (by decide) (by decide)).2.2.2 2 (by decide)⟩

/-- C7 as stated is false: for `n = 4`, `P = 2`, rank 1's slice starts
at element offset 4 (row 1), not `(local_rows_0 - 1) * n = 8` as the
claimed offset formula requires; the two slices (rows 0-2 and rows 1-3)
overlap by two rows, not one. -/
theorem C7_counterexample :
    startIdxs 4 2 1 = 4 ∧ localRows 4 2 0 = 3 ∧ countsVal 4 2 0 = 12 ∧
    ¬(startIdxs 4 2 1 = startIdxs 4 2 0 + (localRows 4 2 0 - 1) * 4) := by decide

/-- C9: when the message-passing runtime is not initialized,
`solve_mpi` prints the diagnostic and returns at once: the field `uh`
and the iteration counter `iter` are returned exactly as they were, no
warning is raised, and the diagnostic flag is set. -/
theorem C9_mpi_uninitialized (P : ℕ) (p : Params) (uh : List ℚ) (iter : ℕ) :
    solve_mpi false P p uh iter = (uh, iter, false, true) := rfl

theorem getD_mem (xs : List ℚ) (r : ℕ) (hr : r < xs.length) : xs.getD r 0 ∈ xs := by
  rw [List.getD_eq_getElem?_getD, List.getElem?_eq_getElem hr]
  exact List.getElem_mem hr

theorem forall_mem_iff_getD (xs : List ℚ) (Q : ℚ → Prop) :
    (∀ x ∈ xs, Q x) ↔ ∀ r, r < xs.length → Q (xs.getD r 0) := by
  constructor
  · intro h r hr
    exact h _ (getD_mem xs r hr)
  · intro h x hx
    obtain ⟨r, hr, rfl⟩ := List.mem_iff_getElem.mp hx
    have : xs.getD r 0 = xs[r] := by
      rw [List.getD_eq_getElem?_getD, List.getElem?_eq_getElem hr]
      rfl
    rw [← this]
    exact h r hr

theorem foldl_max_lt (xs : List ℚ) (c : ℚ) :
    ∀ a, xs.foldl max a < c ↔ a < c ∧ ∀ x ∈ xs, x < c := by
  induction xs with
  | nil => intro a; simp
  | cons x t ih =>
    intro a
    rw [List.foldl_cons, ih, max_lt_iff]
    constructor
    · rintro ⟨⟨ha, hx⟩, hall⟩
      refine ⟨ha, fun y hy => ?_⟩
      rcases List.mem_cons.mp hy with he | ht2
      · exact he ▸ hx
      · exact hall y ht2
    · rintro ⟨ha, hall⟩
      exact ⟨⟨ha, hall x (List.mem_cons_self x t)⟩,
        fun y hy => hall y (List.mem_cons_of_mem x hy)⟩

theorem mpiResidualSqs_length (p : Params) (P : ℕ) (locals : List (List ℚ)) :
    (mpiResidualSqs p P locals).length = P := by
  simp [mpiResidualSqs]

theorem mpiResidualSqs_getD (p : Params) (P : ℕ) (locals : List (List ℚ))
    (r : ℕ) (hr : r < P) :
    (mpiResidualSqs p P locals).getD r 0 =
      compute_error_serial_sq p.n
        (mpiSweepRank p P r (locals.getD r []) (locals.getD r []))
        (locals.getD r []) (localRows p.n P r) p.n := by
  unfold mpiResidualSqs
  rw [List.getD_eq_getElem?_getD, List.getElem?_map, List.getElem?_range hr]
  rfl

/-- C5: in the `solve_mpi` iteration, each rank's residual is
`l2_diff(u_local, u_local_prev, local_rows, n)` of its own slice, the
global value is the MAX all-reduce of these (so every rank's flag is
the same boolean, computed from the same maximum), and convergence is
declared exactly when that maximum is strictly below `tol` —
equivalently, when every rank's local residual is strictly below
`tol`. -/
theorem C5_mpi_convergence (p : Params) (P : ℕ) (locals : List (List ℚ)) (hP : 0 < P) :
    (∀ r, r < P → (mpiConvergedFlags p P locals).getD r false =
      sqrtLtB ((mpiResidualSqs p P locals).foldl max 0) p.tol) ∧
    (∀ r, r < P → (mpiResidualSqs p P locals).getD r 0 =
      compute_error_serial_sq p.n
        (mpiSweepRank p P r (locals.getD r []) (locals.getD r []))
        (locals.getD r []) (localRows p.n P r) p.n) ∧
    (sqrtLtB ((mpiResidualSqs p P locals).foldl max 0) p.tol = true ↔
      (0 < p.tol ∧ ∀ r, r < P →
        (mpiResidualSqs p P locals).getD r 0 < p.tol * p.tol)) := by
  refine ⟨?_, fun r hr => mpiResidualSqs_getD p P locals r hr, ?_⟩
  · intro r hr
    unfold mpiConvergedFlags mpi_allreduce_max
    rw [List.map_replicate, List.getD_eq_getElem?_getD,
      List.getElem?_replicate_of_lt (by rw [mpiResidualSqs_length]; exact hr)]
    rfl
  · unfold sqrtLtB
    rw [decide_eq_true_eq, foldl_max_lt]
    have hlen := mpiResidualSqs_length p P locals
    constructor
    · rintro ⟨ht, _, hall⟩
      refine ⟨ht, fun r hr => ?_⟩
      exact ((forall_mem_iff_getD _ _).mp hall) r (by omega)
    · rintro ⟨ht, hall⟩
      refine ⟨ht, by nlinarith [ht], ?_⟩
      exact (forall_mem_iff_getD _ _).mpr (fun r hr => hall r (by omega))

theorem C5_mpi_convergence_witness :
    (0 < 2) ∧
    (mpiConvergedFlags pT 2 locals5).getD 0 false =
      sqrtLtB ((mpiResidualSqs pT 2 locals5).foldl max 0) pT.tol ∧
    (mpiResidualSqs pT 2 locals5).getD 1 0 =
      compute_error_serial_sq pT.n
        (mpiSweepRank pT 2 1 (locals5.getD 1 []) (locals5.getD 1 []))
        (locals5.getD 1 []) (localRows pT.n 2 1) pT.n :=
  ⟨by decide, (C5_mpi_convergence pT 2 locals5 (by decide)).1 0 (by decide),
    (C5_mpi_convergence pT 2 locals5 (by decide)).2.1 1 (by decide)⟩

/-- At the last interior cell the write-back read index equals the
length of `x`, i.e. it is one past the end. -/
theorem writeBackReadIdx_last (local_rows n : ℕ) (h1 : 3 ≤ local_rows) (h2 : 3 ≤ n) :
    writeBackReadIdx n (local_rows - 2) (n - 2) = directXLen local_rows n := by
  unfold writeBackReadIdx directXLen
  have e : local_rows - 2 - 1 = local_rows - 3 := by omega
  rw [e]
  have e2 : local_rows - 2 = (local_rows - 3) + 1 := by omega
  rw [e2, Nat.succ_mul]

/-- C10 is violated by the code: already for the smallest direct solve
(`local_rows = 3`, `n = 3`, i.e. one rank and one unknown) the write-back
at the in-range loop indices `i = 1`, `j = 1` reads `x[1]`, while `x`
has length `(3-2)*(3-2) = 1`; the read index equals the vector length
instead of staying strictly below it. -/
theorem C10_writeback_read_oob :
    (1 < 3 - 1 ∧ 1 < 3 - 1) ∧
    writeBackReadIdx 3 1 1 = directXLen 3 3 ∧
    ¬(writeBackReadIdx 3 1 1 < directXLen 3 3) := by decide

/-- C6 is violated by the code: for the `p6` instance with one rank and
one outer iteration, `x6` solves the assembled system (all four rows of
`A * x6` equal `b`), yet the write-back stores `x[1]` — the unknown the
assembly associated with the neighboring column — into cell `(1, 1)`
instead of `x[0]`, and the resulting field fails the five-point
equation `4u[1,1] - u[0,1] - u[2,1] - u[1,0] - u[1,2] = h^2 f(1/3, 1/3)`
(the left-hand side evaluates to `-11/18`, the right-hand side to `0`). -/
theorem C6_direct_offbyone :
    (tripletRow (directTriplets p6 4) x6 0 = (directB p6 1 0 uh6 4).getD 0 0 ∧
      tripletRow (directTriplets p6 4) x6 1 = (directB p6 1 0 uh6 4).getD 1 0 ∧
      tripletRow (directTriplets p6 4) x6 2 = (directB p6 1 0 uh6 4).getD 2 0 ∧
      tripletRow (directTriplets p6 4) x6 3 = (directB p6 1 0 uh6 4).getD 3 0) ∧
    (directWriteBack p6 4 x6 uh6).getD (idx 4 1 1) 0 = x6.getD 1 0 ∧
    x6.getD 1 0 ≠ x6.getD 0 0 ∧
    ¬(4 * (directWriteBack p6 4 x6 uh6).getD (idx 4 1 1) 0 -
        (directWriteBack p6 4 x6 uh6).getD (idx 4 0 1) 0 -
        (directWriteBack p6 4 x6 uh6).getD (idx 4 2 1) 0 -
        (directWriteBack p6 4 x6 uh6).getD (idx 4 1 0) 0 -
        (directWriteBack p6 4 x6 uh6).getD (idx 4 1 2) 0 =
      hstep p6.n * hstep p6.n * funAt p6.n p6.f 1 1) := by
  norm_num [tripletRow, directTriplets, directB, directWriteBack, writeBackReadIdx, uh6,
    applyBoundaryMpi, bStepMpi, x6, p6, funAt, hstep, idx, startIdxs, List.replicate,
    show List.range 4 = [0, 1, 2, 3] by rfl, show List.range 2 = [0, 1] by rfl,
    show List.range' 1 2 = [1, 2] by rfl]

end Laplace
